import Mathlib

deriving instance DecidableEq for Except

/-!
Shallow embedding of the LifeSharp tokenizer front end (Rust crate `lifesharp`)
and proofs about it.

Embedded source files:
* `src/lexer/mod.rs`   — `Token`, `Cache`, `Output`, `tokenize`, `LineCharacters`
* `src/lexer/input.rs` — `Input for std::str::Lines`, `InputSource for &str`,
  `Wrapper::next_line`
* `src/identifier.rs`  — `Id::new`, `InvalidError`
* `src/location.rs`    — `Number` (`NonZeroUsize`), `FIRST_NUMBER`,
  `increment_number`, `Offset`, `OffsetRange`

Modelling conventions:
* Rust `&str` / `String` values are modelled as `List Char` (sequences of
  Unicode scalar values, exactly what `str::chars` yields).
* Rust `usize` offsets inside the tokenizer are modelled as `Nat`; the one
  place the source itself performs a checked-overflow operation
  (`location::increment_number` on `NonZeroUsize`) is modelled separately with
  the 64-bit wrap made explicit.
* A Rust panic (`todo!`, `expect`) is a distinguished outcome carrying the
  panic message, kept separate from the `Result::Err` channel of `tokenize`.
* Tokens that borrow interned data (`&'l Identifier`, `&'l LiteralString`) are
  modelled by the content they reference.
-/

namespace LifeSharp

/-- Models `location::Offset = usize`, a byte index into the source. -/
abbrev Offset := Nat

/-- Models `location::OffsetRange = std::ops::Range<Offset>`; the Rust field
`end` is named `stop` here because `end` is a Lean keyword. -/
structure OffsetRange where
  start : Offset
  stop : Offset
deriving Repr, DecidableEq

/-- Models the `Token<'l>` enum of `src/lexer/mod.rs`.  Variants that hold a
reference into interner/arena storage (`Identifier(&'l Identifier)`,
`LiteralString(&'l LiteralString)`, …) are modelled by the referenced
content itself. -/
inductive Token where
  | Dedent
  | Indent
  | OpenCurlyBrace
  | CloseCurlyBrace
  | OpenParenthesis
  | CloseParenthesis
  | OpenSquareBracket
  | CloseSquareBracket
  | LessThan
  | GreaterThan
  | BackwardSlash
  | PlusSign
  | MinusSign
  | Asterisk
  | Semicolon
  | ForwardSlash
  | Period
  | Equals
  | Ampersand
  | VerticalBar
  | Colon
  | DoubleColon
  | Assignment
  | LambdaReturn
  | KeywordDef
  | KeywordFun
  | KeywordUse
  | KeywordType
  | LiteralCharacter (c : Char)
  | LiteralString (s : List Char)
  | LiteralBoolean (b : Bool)
  | Identifier (id : List Char)
  | TypeParameter (id : List Char)
  | LifetimeParameter (id : List Char)
deriving Repr, DecidableEq

/-- Models the `match code_point` dispatch in `tokenize`
(`src/lexer/mod.rs`, lines 214–236): `some t` for the nineteen single-character
arms that invoke `simple_token!`, `none` for the fall-through
`_ => todo!("other tokens")` arm. -/
def simpleToken : Char → Option Token
  | '{' => some Token.OpenCurlyBrace
  | '}' => some Token.CloseCurlyBrace
  | '(' => some Token.OpenParenthesis
  | ')' => some Token.CloseParenthesis
  | '[' => some Token.OpenSquareBracket
  | ']' => some Token.CloseSquareBracket
  | '<' => some Token.LessThan
  | '>' => some Token.GreaterThan
  | '\\' => some Token.BackwardSlash
  | '+' => some Token.PlusSign
  | '-' => some Token.MinusSign
  | '*' => some Token.Asterisk
  | ';' => some Token.Semicolon
  | '/' => some Token.ForwardSlash
  | '.' => some Token.Period
  | '=' => some Token.Equals
  | '&' => some Token.Ampersand
  | '|' => some Token.VerticalBar
  | _ => none

/-- Message of the Rust `todo!("other tokens")` panic reached for any code
point with no `simple_token!` arm. -/
def todoOtherTokens : String := "not yet implemented: other tokens"

/-- Outcome of one call to `tokenize`: `ok` models `Ok(Output)` (the token
sequence it owns), `err` models the `Err` branch of the returned `Result`
(an input-source failure), and `panicked` models a Rust panic (the `todo!`
placeholder), which bypasses the `Result` channel entirely. -/
inductive TokResult (E : Type) where
  | ok : List (Token × OffsetRange) → TokResult E
  | err : E → TokResult E
  | panicked : String → TokResult E
deriving DecidableEq

/-- Models `Cache<'o>` of `src/lexer/mod.rs`: the reusable `line_buffer:
String` and `tokens: Vec<(Token, OffsetRange)>`. -/
structure Cache where
  line_buffer : List Char
  tokens : List (Token × OffsetRange)
deriving Repr, DecidableEq

/-- Models `Wrapper::next_line` of `src/lexer/input.rs` (lines 124–137) for one
available line `l`: `self.buffer.clear()` followed by the input pushing the
line's characters onto the buffer (`buffer.0.push_str(line)`).  Returns the
string handed to the scanner together with the buffer's new contents. -/
def wrapperNextLine (_buffer l : List Char) : List Char × List Char :=
  let cleared : List Char := []
  (cleared ++ l, cleared ++ l)

/-- Models the inner `while let Some((code_point, start_byte_offset,
remaining_line)) = line.next_char()` loop of `tokenize`
(`src/lexer/mod.rs`, lines 198–237).  The `simple_token!` macro pushes
`(Token::$name, OffsetRange { start, end: start + 1 })`, sets
`line = remaining_line` (whose `byte_offset` is `start_byte_offset + 1`, the
`LineCharacters::next_char` bookkeeping), and then executes `break`, so no
match arm ever continues the loop: the function returns after at most one
character.  The `_` arm executes `todo!("other tokens")`, a panic.  Returns
the updated token vector and the final `line.byte_offset` used for
`next_byte_offset`. -/
def lineLoop (line : List Char) (off : Offset)
    (tokens : List (Token × OffsetRange)) :
    Except String (List (Token × OffsetRange) × Offset) :=
  match line with
  | [] => Except.ok (tokens, off)
  | c :: _rest =>
    match simpleToken c with
    | some t => Except.ok (tokens ++ [(t, ⟨off, off + 1⟩)], off + 1)
    | none => Except.error todoOtherTokens

/-- Models the outer `while let Some((current_line, line_number)) =
input.next_line()?` loop of `tokenize` (`src/lexer/mod.rs`, lines 193–245),
generically over the `Input` implementation: the input is the list of
`next_line` outcomes, an `Except.error e` aborting via the `?` operator.
Threads the reusable line buffer through `wrapperNextLine` and the running
`next_byte_offset` and token vector through `lineLoop`.  Also returns the
final state of the caller's `Cache` buffers. -/
def tokenizeLoop (E : Type) :
    List (Except E (List Char)) → List Char → Offset →
    List (Token × OffsetRange) → TokResult E × Cache
  | [], buffer, _off, tokens => (TokResult.ok tokens, ⟨buffer, tokens⟩)
  | Except.error e :: _, buffer, _off, tokens =>
    (TokResult.err e, ⟨buffer, tokens⟩)
  | Except.ok l :: rest, buffer, off, tokens =>
    let line := wrapperNextLine buffer l
    match lineLoop line.1 off tokens with
    | Except.error msg => (TokResult.panicked msg, ⟨line.2, tokens⟩)
    | Except.ok (tokens', off') => tokenizeLoop E rest line.2 off' tokens'

/-- Models `str::split('\n')`: the pieces of the character list obtained by
cutting at every `'\n'`.  Always returns at least one (possibly empty)
piece. -/
def splitNewline : List Char → List (List Char)
  | [] => [[]]
  | c :: rest =>
    if c = '\n' then [] :: splitNewline rest
    else
      match splitNewline rest with
      | [] => [[c]]
      | l :: ls => (c :: l) :: ls

/-- Models the `split_terminator` part of `str::lines`: a trailing empty piece
(produced by a terminating `'\n'` or by an empty source) is dropped. -/
def dropTrailingEmpty (parts : List (List Char)) : List (List Char) :=
  if parts.getLast? = some ([] : List Char) then parts.dropLast else parts

/-- Models the carriage-return stripping of `str::lines`: a single trailing
`'\r'` is removed from each line. -/
def stripCR (l : List Char) : List Char :=
  if l.getLast? = some '\r' then l.dropLast else l

/-- Models `str::lines` (`<&str as InputSource>::into_input` returns
`self.lines()`, `src/lexer/input.rs` lines 90–96): split on `'\n'`, drop a
trailing empty piece, strip one trailing `'\r'` per line. -/
def rustLines (s : List Char) : List (List Char) :=
  (dropTrailingEmpty (splitNewline s)).map stripCR

/-- Models `lexer::tokenize(source, cache)` of `src/lexer/mod.rs` (lines
127–246) for an in-memory string source (`InputSource for &str`, whose
`Input` error type is `Infallible`, modelled by `Empty`).  With a supplied
cache, `previous_tokens.clear()` empties the token vector while the line
buffer keeps its previous contents; otherwise both start from `default`.
The second component is the final state of the cache's buffers. -/
def tokenize (source : List Char) (cache : Option Cache) :
    TokResult Empty × Cache :=
  match cache with
  | some c =>
    tokenizeLoop Empty ((rustLines source).map Except.ok) c.line_buffer 0 []
  | none => tokenizeLoop Empty ((rustLines source).map Except.ok) [] 0 []

/-- Models `Char::is_ascii_alphabetic`. -/
def isAsciiAlphabetic (c : Char) : Bool :=
  decide (65 ≤ c.toNat ∧ c.toNat ≤ 90) || decide (97 ≤ c.toNat ∧ c.toNat ≤ 122)

/-- Models `Char::is_ascii_digit`. -/
def isAsciiDigit (c : Char) : Bool :=
  decide (48 ≤ c.toNat ∧ c.toNat ≤ 57)

/-- Models `identifier::InvalidError` (`src/identifier.rs`, lines 17–30). -/
inductive InvalidError where
  | InvalidCodePoint (code_point : Char) (index : Nat)
  | Empty
deriving Repr, DecidableEq

/-- Models the closure passed to `find` in `Id::new`
(`src/identifier.rs`, lines 44–46): a code point `c` at enumeration index `i`
is invalid when `!(c.is_ascii_alphabetic() || *c == '_') ||
(*i == 0 && c.is_ascii_digit())`. -/
def invalidAt (i : Nat) (c : Char) : Bool :=
  !(isAsciiAlphabetic c || c == '_') || (i == 0 && isAsciiDigit c)

/-- Models `identifier.chars().enumerate().find(...)` in `Id::new`: the first
(index, code point) pair satisfying `invalidAt`, enumeration starting at
`i`. -/
def firstInvalid (i : Nat) : List Char → Option (Nat × Char)
  | [] => none
  | c :: rest =>
    if invalidAt i c then some (i, c) else firstInvalid (i + 1) rest

/-- Models `Id::new` (`src/identifier.rs`, lines 43–59): report the first
invalid code point with its code-point index; otherwise report `Empty` for a
zero-length string; otherwise succeed with the (unchanged, now validated)
identifier content. -/
def idNew (identifier : List Char) : Except InvalidError (List Char) :=
  match firstInvalid 0 identifier with
  | some (index, bad) => Except.error (InvalidError.InvalidCodePoint bad index)
  | none =>
    if identifier = [] then Except.error InvalidError.Empty
    else Except.ok identifier

/-- Models the value range of `usize` (64-bit target), the representation
underlying `location::Number = NonZeroUsize`. -/
def USIZE_SIZE : Nat := 2 ^ 64

/-- Models `location::FIRST_NUMBER`, the first line or column number. -/
def FIRST_NUMBER : Nat := 1

/-- Models `location::increment_number` (`src/location.rs`, lines 17–19):
`Number::new(number.get() + 1).expect("location number overflowed")`.  The
release-mode `usize` addition wraps modulo `2^64`; `NonZeroUsize::new`
returns `None` exactly when the wrapped sum is zero, and `expect` then
panics with the quoted message — modelled as the `Except.error` outcome. -/
def incrementNumber (number : Nat) : Except String Nat :=
  let sum := (number + 1) % USIZE_SIZE
  if sum = 0 then Except.error "location number overflowed" else Except.ok sum

/-- Property that consecutive stream entries have non-overlapping,
non-decreasing ranges: `entries[i].range.end <= entries[i+1].range.start`. -/
def RangeOrdered (ts : List (Token × OffsetRange)) : Prop :=
  List.Chain' (fun a b => a.2.stop ≤ b.2.start) ts

lemma lineLoop_ok_cases {l : List Char} {off : Offset}
    {ts ts' : List (Token × OffsetRange)} {off' : Offset}
    (h : lineLoop l off ts = Except.ok (ts', off')) :
    (ts' = ts ∧ off' = off) ∨
      ∃ t, ts' = ts ++ [(t, ⟨off, off + 1⟩)] ∧ off' = off + 1 := by
  cases l with
  | nil =>
    simp only [lineLoop, Except.ok.injEq, Prod.mk.injEq] at h
    exact Or.inl ⟨h.1.symm, h.2.symm⟩
  | cons c rest =>
    cases hst : simpleToken c with
    | none => simp [lineLoop, hst] at h
    | some t =>
      simp only [lineLoop, hst, Except.ok.injEq, Prod.mk.injEq] at h
      exact Or.inr ⟨t, h.1.symm, h.2.symm⟩

lemma tokenizeLoop_ok_inv (E : Type) :
    ∀ (input : List (Except E (List Char))) (buffer : List Char) (off : Offset)
      (ts ts' : List (Token × OffsetRange)),
      (∀ e ∈ ts, e.2.stop ≤ off) →
      (∀ e ∈ ts, e.2.start ≤ e.2.stop) →
      RangeOrdered ts →
      (tokenizeLoop E input buffer off ts).1 = TokResult.ok ts' →
      (∀ e ∈ ts', e.2.start ≤ e.2.stop) ∧ RangeOrdered ts' := by
  intro input
  induction input with
  | nil =>
    intro buffer off ts ts' _hb hw ho h
    simp only [tokenizeLoop, TokResult.ok.injEq] at h
    subst h
    exact ⟨hw, ho⟩
  | cons hd tl ih =>
    intro buffer off ts ts' hb hw ho h
    cases hd with
    | error e => simp [tokenizeLoop] at h
    | ok l =>
      simp only [tokenizeLoop, wrapperNextLine, List.nil_append] at h
      cases hline : lineLoop l off ts with
      | error msg => rw [hline] at h; simp at h
      | ok p =>
        obtain ⟨ts₂, off₂⟩ := p
        rw [hline] at h
        simp only [] at h
        rcases lineLoop_ok_cases hline with ⟨hts, hoff⟩ | ⟨t, hts, hoff⟩
        · subst hts; subst hoff
          exact ih l _ _ ts' hb hw ho h
        · subst hts; subst hoff
          apply ih l (off + 1) _ ts' ?_ ?_ ?_ h
          · intro e he
            rcases List.mem_append.mp he with h1 | h2
            · exact Nat.le_succ_of_le (hb e h1)
            · simp only [List.mem_singleton] at h2
              subst h2
              exact Nat.le_refl _
          · intro e he
            rcases List.mem_append.mp he with h1 | h2
            · exact hw e h1
            · simp only [List.mem_singleton] at h2
              subst h2
              exact Nat.le_succ _
          · apply List.Chain'.append ho (List.chain'_singleton _)
            intro x hx y hy
            simp only [List.head?_cons, Option.mem_def, Option.some.injEq] at hy
            subst hy
            exact hb x (List.mem_of_mem_getLast? hx)

lemma tokenizeLoop_fst_buffer_irrel (E : Type) :
    ∀ (input : List (Except E (List Char))) (b₁ b₂ : List Char) (off : Offset)
      (ts : List (Token × OffsetRange)),
      (tokenizeLoop E input b₁ off ts).1 = (tokenizeLoop E input b₂ off ts).1 := by
  intro input
  induction input with
  | nil => intro b₁ b₂ off ts; rfl
  | cons hd tl ih =>
    intro b₁ b₂ off ts
    cases hd with
    | error e => rfl
    | ok l => rfl

/-- C1: on a successful tokenization each recognized lexeme is supposed to
appear as one `(Token, OffsetRange)` entry — in particular a line with
several recognized punctuation symbols should yield one entry per symbol.
The code violates this: the `simple_token!` macro ends in `break`, so the
scan loop of `tokenize` exits after the first token of every line.
Evaluating the embedded code on the failing input shows that the two-symbol
line `"{}"` yields exactly one entry and the `'}'` lexeme is silently
dropped. -/
theorem tokenize_one_token_per_line :
    (tokenize ['{', '}'] none).1 =
      TokResult.ok [(Token.OpenCurlyBrace, OffsetRange.mk 0 1)] := by decide

/-- C3: an unrecognized code point is supposed to produce a returned error
carrying the offending code point and its byte offset.  The code instead
reaches `todo!("other tokens")`, a panic whose fixed message carries
neither; evaluating the embedded code on the one-character source `"a"`
shows the panic outcome. -/
theorem tokenize_unrecognized_panics :
    (tokenize ['a'] none).1 = TokResult.panicked todoOtherTokens := by decide

/-- C4: a source with one nested increasing-indent line followed by a return
to the base indent (`"{"`, `" {"`, `"}"`) is supposed to emit one `Indent`
and one `Dedent` token interleaved with the content tokens.  Indentation
counting is an unimplemented `TODO` in `tokenize`: the leading space of the
indented line reaches the `todo!("other tokens")` panic, and the tokens
accumulated up to that point contain no `Indent` or `Dedent`. -/
theorem tokenize_indentation_unimplemented :
    (tokenize ['{', '\n', ' ', '{', '\n', '}'] none).1 =
        TokResult.panicked todoOtherTokens ∧
      (tokenize ['{', '\n', ' ', '{', '\n', '}'] none).2.tokens =
        [(Token.OpenCurlyBrace, OffsetRange.mk 0 1)] := by decide

/-- C6: for every successful tokenization, every emitted `OffsetRange`
satisfies `start ≤ end`, and consecutive stream entries are non-overlapping
and non-decreasing: `entries[i].range.end ≤ entries[i+1].range.start`. -/
theorem tokenize_offsets_monotone :
    ∀ (source : List Char) (cache : Option Cache)
      (ts : List (Token × OffsetRange)),
      (tokenize source cache).1 = TokResult.ok ts →
      (∀ e ∈ ts, e.2.start ≤ e.2.stop) ∧ RangeOrdered ts := by
  intro source cache ts h
  cases cache with
  | none =>
    exact tokenizeLoop_ok_inv Empty _ _ 0 [] ts (by simp) (by simp)
      List.chain'_nil h
  | some c =>
    exact tokenizeLoop_ok_inv Empty _ _ 0 [] ts (by simp) (by simp)
      List.chain'_nil h

/-- Witness for C6: the offset-monotonicity theorem applied to the concrete
two-line source `"{\n}"`. -/
theorem tokenize_offsets_monotone_witness :
    (∀ e ∈ [(Token.OpenCurlyBrace, OffsetRange.mk 0 1),
            (Token.CloseCurlyBrace, OffsetRange.mk 1 2)],
        e.2.start ≤ e.2.stop) ∧
      RangeOrdered [(Token.OpenCurlyBrace, OffsetRange.mk 0 1),
                    (Token.CloseCurlyBrace, OffsetRange.mk 1 2)] :=
  tokenize_offsets_monotone ['{', '\n', '}'] none
    [(Token.OpenCurlyBrace, OffsetRange.mk 0 1),
     (Token.CloseCurlyBrace, OffsetRange.mk 1 2)] (by decide)

/-- C8: tokenizing source `A` with a fresh `Cache` and then tokenizing `B`
reusing that same now-populated `Cache` yields exactly the same result for
`B` as tokenizing `B` with a fresh `Cache`: nothing from the first run leaks
into the second result (`tokenize` clears the reused token vector, and
`Wrapper::next_line` clears the reused line buffer before every line). -/
theorem tokenize_cache_reuse :
    ∀ (A B : List Char),
      (tokenize B (some (tokenize A (some ⟨[], []⟩)).2)).1 =
        (tokenize B (some ⟨[], []⟩)).1 := by
  intro A B
  simp only [tokenize]
  exact tokenizeLoop_fst_buffer_irrel Empty _ _ _ 0 []

lemma rustLines_single {c : Char} (h1 : c ≠ '\n') (h2 : c ≠ '\r') :
    rustLines [c] = [[c]] := by
  simp [rustLines, splitNewline, dropTrailingEmpty, stripCR, h1, h2]

/-- C7: tokenizing a one-character source holding one recognized punctuation
symbol yields exactly one stream entry whose token matches that symbol at
range `[0, 1)`; concretely for `"{"`, `"("`, the path separator `"\\"` and
the line separator `";"`. -/
theorem tokenize_single_punctuation :
    (∀ (c : Char) (t : Token), simpleToken c = some t →
        (tokenize [c] none).1 = TokResult.ok [(t, OffsetRange.mk 0 1)]) ∧
      (tokenize ['{'] none).1 =
        TokResult.ok [(Token.OpenCurlyBrace, OffsetRange.mk 0 1)] ∧
      (tokenize ['('] none).1 =
        TokResult.ok [(Token.OpenParenthesis, OffsetRange.mk 0 1)] ∧
      (tokenize ['\\'] none).1 =
        TokResult.ok [(Token.BackwardSlash, OffsetRange.mk 0 1)] ∧
      (tokenize [';'] none).1 =
        TokResult.ok [(Token.Semicolon, OffsetRange.mk 0 1)] := by
  refine ⟨?_, by decide, by decide, by decide, by decide⟩
  intro c t h
  have h1 : c ≠ '\n' := by
    intro e
    subst e
    rw [show simpleToken '\n' = none from by decide] at h
    exact Option.noConfusion h
  have h2 : c ≠ '\r' := by
    intro e
    subst e
    rw [show simpleToken '\r' = none from by decide] at h
    exact Option.noConfusion h
  simp only [tokenize, rustLines_single h1 h2, List.map]
  simp [tokenizeLoop, wrapperNextLine, lineLoop, h]

/-- Witness for C7: the general single-punctuation theorem applied at the
concrete symbol `'}'`. -/
theorem tokenize_single_punctuation_witness :
    (tokenize ['}'] none).1 =
      TokResult.ok [(Token.CloseCurlyBrace, OffsetRange.mk 0 1)] :=
  tokenize_single_punctuation.1 '}' Token.CloseCurlyBrace (by decide)

lemma mem_splitNewline :
    ∀ (s l : List Char), l ∈ splitNewline s → ∀ c ∈ l, c ∈ s ∧ c ≠ '\n' := by
  intro s
  induction s with
  | nil =>
    intro l hl c hc
    simp [splitNewline] at hl
    subst hl
    simp at hc
  | cons a rest ih =>
    intro l hl c hc
    by_cases ha : a = '\n'
    · subst ha
      simp only [splitNewline, if_pos rfl] at hl
      rcases List.mem_cons.mp hl with h | h
      · subst h; simp at hc
      · obtain ⟨hcs, hcn⟩ := ih l h c hc
        exact ⟨List.mem_cons_of_mem _ hcs, hcn⟩
    · simp only [splitNewline, if_neg ha] at hl
      cases hsp : splitNewline rest with
      | nil =>
        rw [hsp] at hl
        simp at hl
        subst hl
        simp at hc
        subst hc
        exact ⟨List.mem_cons_self _ _, ha⟩
      | cons l₀ ls =>
        rw [hsp] at hl
        rcases List.mem_cons.mp hl with h | h
        · subst h
          rcases List.mem_cons.mp hc with h' | h'
          · subst h'
            exact ⟨List.mem_cons_self _ _, ha⟩
          · obtain ⟨hcs, hcn⟩ :=
              ih l₀ (by rw [hsp]; exact List.mem_cons_self _ _) c h'
            exact ⟨List.mem_cons_of_mem _ hcs, hcn⟩
        · obtain ⟨hcs, hcn⟩ :=
            ih l (by rw [hsp]; exact List.mem_cons_of_mem _ h) c hc
          exact ⟨List.mem_cons_of_mem _ hcs, hcn⟩

lemma mem_rustLines {s l : List Char} {c : Char} (hl : l ∈ rustLines s)
    (hc : c ∈ l) : c ∈ s ∧ c ≠ '\n' := by
  rw [rustLines] at hl
  obtain ⟨l₁, hl₁, rfl⟩ := List.mem_map.mp hl
  have hc₁ : c ∈ l₁ := by
    rw [stripCR] at hc
    split at hc
    · exact List.mem_of_mem_dropLast hc
    · exact hc
  have hl₂ : l₁ ∈ splitNewline s := by
    rw [dropTrailingEmpty] at hl₁
    split at hl₁
    · exact List.mem_of_mem_dropLast hl₁
    · exact hl₁
  exact mem_splitNewline s l₁ hl₂ c hc₁

lemma tokenizeLoop_all_recognized :
    ∀ (lines : List (List Char)) (buffer : List Char) (off : Offset)
      (ts : List (Token × OffsetRange)),
      (∀ l ∈ lines, ∀ c ∈ l, (simpleToken c).isSome = true) →
      ∃ ts', (tokenizeLoop Empty (lines.map Except.ok) buffer off ts).1 =
        TokResult.ok ts' := by
  intro lines
  induction lines with
  | nil => intro buffer off ts _h; exact ⟨ts, rfl⟩
  | cons l tl ih =>
    intro buffer off ts h
    have hl := h l (List.mem_cons_self _ _)
    have htl : ∀ l' ∈ tl, ∀ c ∈ l', (simpleToken c).isSome = true :=
      fun l' hl' => h l' (List.mem_cons_of_mem _ hl')
    cases l with
    | nil =>
      simp only [List.map, tokenizeLoop, wrapperNextLine, List.nil_append,
        lineLoop]
      exact ih _ _ _ htl
    | cons ch chs =>
      have hch := hl ch (List.mem_cons_self _ _)
      obtain ⟨t, ht⟩ := Option.isSome_iff_exists.mp hch
      simp only [List.map, tokenizeLoop, wrapperNextLine, List.nil_append,
        lineLoop, ht]
      exact ih _ _ _ htl

/-- C10: with an in-memory string source the `Input` error type is the
uninhabited `Infallible`, so the `Err` branch of `tokenize`'s result is
unreachable, and any source whose characters are all recognized (line
separators aside) tokenizes to `Ok`. -/
theorem tokenize_str_infallible :
    (∀ (source : List Char) (cache : Option Cache),
        ¬ ∃ e, (tokenize source cache).1 = TokResult.err e) ∧
      ∀ (source : List Char) (cache : Option Cache),
        (∀ c ∈ source, c = '\n' ∨ (simpleToken c).isSome = true) →
        ∃ ts, (tokenize source cache).1 = TokResult.ok ts := by
  constructor
  · rintro source cache ⟨e, _⟩
    exact e.elim
  · intro source cache h
    have hlines :
        ∀ l ∈ rustLines source, ∀ c ∈ l, (simpleToken c).isSome = true := by
      intro l hl c hc
      obtain ⟨hs, hn⟩ := mem_rustLines hl hc
      rcases h c hs with h' | h'
      · exact absurd h' hn
      · exact h'
    cases cache with
    | none => exact tokenizeLoop_all_recognized _ _ _ _ hlines
    | some c => exact tokenizeLoop_all_recognized _ _ _ _ hlines

/-- Witness for C10: the all-recognized source `"("` tokenizes to `Ok`. -/
theorem tokenize_str_infallible_witness :
    ∃ ts, (tokenize ['('] none).1 = TokResult.ok ts :=
  tokenize_str_infallible.2 ['('] none (by decide)

/-- C9: line/column numbers are strictly positive counters starting at 1,
and incrementing one is a checked operation: a successful increment is the
exact successor (never a silent wrap), and the increment whose underlying
64-bit integer would wrap to zero fails loudly with the
location-overflow message instead. -/
theorem increment_number_checked :
    FIRST_NUMBER = 1 ∧ 0 < FIRST_NUMBER ∧
      ∀ n : Nat, 0 < n → n < USIZE_SIZE →
        (∀ m, incrementNumber n = Except.ok m → m = n + 1 ∧ 0 < m) ∧
        (incrementNumber n = Except.error "location number overflowed" ↔
          n + 1 = USIZE_SIZE) := by
  refine ⟨rfl, Nat.one_pos, ?_⟩
  intro n _h0 hlt
  by_cases he : n + 1 = USIZE_SIZE
  · have hm : (n + 1) % USIZE_SIZE = 0 := by rw [he]; exact Nat.mod_self _
    constructor
    · intro m hm'
      simp [incrementNumber, hm] at hm'
    · simp [incrementNumber, hm, he]
  · have hlt2 : n + 1 < USIZE_SIZE := Nat.lt_of_le_of_ne hlt he
    have hm : (n + 1) % USIZE_SIZE = n + 1 := Nat.mod_eq_of_lt hlt2
    have hnz : n + 1 ≠ 0 := Nat.succ_ne_zero n
    constructor
    · intro m hm'
      simp [incrementNumber, hm, hnz] at hm'
      omega
    · constructor
      · intro habs
        simp [incrementNumber, hm, hnz] at habs
      · intro habs
        exact absurd habs he

/-- Witness for C9: the increment theorem applied at the concrete number 1,
and at the concrete successful outcome 2. -/
theorem increment_number_checked_witness :
    (2 = 1 + 1 ∧ 0 < 2) ∧
      (incrementNumber 1 = Except.error "location number overflowed" ↔
        1 + 1 = USIZE_SIZE) :=
  ⟨(increment_number_checked.2.2 1 (by decide) (by decide)).1 2 (by decide),
   (increment_number_checked.2.2 1 (by decide) (by decide)).2⟩

lemma isAsciiDigit_not_alpha {c : Char} (h : isAsciiDigit c = true) :
    isAsciiAlphabetic c = false := by
  simp only [isAsciiDigit, decide_eq_true_eq] at h
  simp only [isAsciiAlphabetic, Bool.or_eq_false_iff, decide_eq_false_iff_not]
  omega

lemma isAsciiDigit_ne_underscore {c : Char} (h : isAsciiDigit c = true) :
    (c == '_') = false := by
  rcases Bool.eq_false_or_eq_true (c == '_') with hb | hb
  · have hc : c = '_' := eq_of_beq hb
    subst hc
    exact absurd h (by decide)
  · exact hb

lemma invalidAt_eq (i : Nat) (c : Char) :
    invalidAt i c = !(isAsciiAlphabetic c || c == '_') := by
  rw [invalidAt]
  cases hd : isAsciiDigit c
  · simp [hd]
  · simp [hd, isAsciiDigit_not_alpha hd, isAsciiDigit_ne_underscore hd]

lemma firstInvalid_eq_none (s : List Char) :
    ∀ i, firstInvalid i s = none ↔
      ∀ c ∈ s, (isAsciiAlphabetic c || c == '_') = true := by
  induction s with
  | nil => intro i; simp [firstInvalid]
  | cons a rest ih =>
    intro i
    cases hv : isAsciiAlphabetic a || a == '_'
    · constructor
      · intro h
        rw [firstInvalid, invalidAt_eq, hv] at h
        simp at h
      · intro h
        have ha := h a (List.mem_cons_self _ _)
        rw [hv] at ha
        exact Bool.noConfusion ha
    · constructor
      · intro h
        rw [firstInvalid, invalidAt_eq, hv] at h
        simp at h
        intro c hc
        rcases List.mem_cons.mp hc with rfl | hc'
        · exact hv
        · exact ((ih (i + 1)).mp h) c hc'
      · intro h
        rw [firstInvalid, invalidAt_eq, hv]
        simp
        exact (ih (i + 1)).mpr fun c hc => h c (List.mem_cons_of_mem _ hc)

lemma firstInvalid_eq_some (s : List Char) :
    ∀ i j c, firstInvalid i s = some (j, c) →
      ∃ k, j = i + k ∧ s[k]? = some c ∧
        (isAsciiAlphabetic c || c == '_') = false ∧
        ∀ m d, m < k → s[m]? = some d →
          (isAsciiAlphabetic d || d == '_') = true := by
  induction s with
  | nil => intro i j c h; simp [firstInvalid] at h
  | cons a rest ih =>
    intro i j c h
    rw [firstInvalid, invalidAt_eq] at h
    cases hv : isAsciiAlphabetic a || a == '_'
    · rw [hv] at h
      simp at h
      obtain ⟨hj, hc⟩ := h
      subst hj
      subst hc
      refine ⟨0, by omega, by simp, hv, ?_⟩
      intro m d hm _
      exact absurd hm (Nat.not_lt_zero m)
    · rw [hv] at h
      simp at h
      obtain ⟨k, hk, hget, hinv, hprev⟩ := ih (i + 1) j c h
      refine ⟨k + 1, by omega, by simpa using hget, hinv, ?_⟩
      intro m d hm hget'
      cases m with
      | zero =>
        simp at hget'
        subst hget'
        exact hv
      | succ m' =>
        exact hprev m' d (by omega) (by simpa using hget')

/-- C5: identifier validation accepts `"n"`, `"test"` and `"_x"`; rejects
`"1abc"` with an invalid-code-point error at index 0, the empty string with
the distinct empty-identifier error, and `"my-type"` with an
invalid-code-point error for `'-'` at code-point index 2; in general it
succeeds exactly on non-empty strings of ASCII letters and underscores, an
empty-identifier error occurs exactly for the empty string, and an
invalid-code-point error reports the first invalid code point and its
code-point index. -/
theorem idNew_validation :
    idNew ['n'] = Except.ok ['n'] ∧
      idNew ['t', 'e', 's', 't'] = Except.ok ['t', 'e', 's', 't'] ∧
      idNew ['_', 'x'] = Except.ok ['_', 'x'] ∧
      idNew ['1', 'a', 'b', 'c'] =
        Except.error (InvalidError.InvalidCodePoint '1' 0) ∧
      idNew [] = Except.error InvalidError.Empty ∧
      idNew ['m', 'y', '-', 't', 'y', 'p', 'e'] =
        Except.error (InvalidError.InvalidCodePoint '-' 2) ∧
      (∀ s : List Char, idNew s = Except.ok s ↔
        s ≠ [] ∧ ∀ c ∈ s, (isAsciiAlphabetic c || c == '_') = true) ∧
      (∀ s : List Char, idNew s = Except.error InvalidError.Empty ↔ s = []) ∧
      ∀ (s : List Char) (j : Nat) (c : Char),
        idNew s = Except.error (InvalidError.InvalidCodePoint c j) →
          s[j]? = some c ∧ (isAsciiAlphabetic c || c == '_') = false ∧
          ∀ m d, m < j → s[m]? = some d →
            (isAsciiAlphabetic d || d == '_') = true := by
  refine ⟨by decide, by decide, by decide, by decide, by decide, by decide,
    ?_, ?_, ?_⟩
  · intro s
    cases hf : firstInvalid 0 s with
    | some p =>
      obtain ⟨j, c⟩ := p
      simp only [idNew, hf]
      constructor
      · intro h
        simp at h
      · rintro ⟨_hne, hall⟩
        have hnone : firstInvalid 0 s = none := (firstInvalid_eq_none s 0).mpr hall
        rw [hf] at hnone
        simp at hnone
    | none =>
      simp only [idNew, hf]
      by_cases hs : s = []
      · subst hs
        simp
      · have hall := (firstInvalid_eq_none s 0).mp hf
        simp only [if_neg hs]
        simp [hs]
        intro c hc
        have hc' := hall c hc
        simp at hc'
        exact hc'
  · intro s
    cases hf : firstInvalid 0 s with
    | some p =>
      obtain ⟨j, c⟩ := p
      simp only [idNew, hf]
      constructor
      · intro h
        simp at h
      · intro h
        subst h
        simp [firstInvalid] at hf
    | none =>
      simp only [idNew, hf]
      by_cases hs : s = []
      · subst hs
        simp
      · simp [hs]
  · intro s j c h
    cases hf : firstInvalid 0 s with
    | none =>
      simp only [idNew, hf] at h
      by_cases hs : s = [] <;> simp [hs] at h
    | some p =>
      obtain ⟨j₀, c₀⟩ := p
      simp only [idNew, hf] at h
      injection h with h'
      injection h' with h1 h2
      subst h1
      subst h2
      obtain ⟨k, hk, hget, hinv, hprev⟩ := firstInvalid_eq_some s 0 _ _ hf
      have hkj : k = j₀ := by omega
      subst hkj
      exact ⟨hget, hinv, hprev⟩

/-- Witness for C5: the success characterization applied backward at the
concrete identifier `"n"`. -/
theorem idNew_validation_witness : idNew ['n'] = Except.ok ['n'] :=
  (idNew_validation.2.2.2.2.2.2.1 ['n']).mpr (by decide)

end LifeSharp
